import Mathlib

/-
Verification of the file organizer (src/main.rs).

The program reorganizes the regular files of a directory into a
year/month/week hierarchy derived from each file's modification time
(organize), and can flatten the hierarchy back (reverse_organize).

Embedding choices:
* A modification time is modelled by the local civil date it falls on,
  represented as a day number z : Int (days since 1970-01-01 in the local
  time zone, assumed to be a fixed offset).  Calendar conversions use the
  standard Gregorian civil-date algorithms, matching what chrono's
  Datelike/format implementation computes.
* The filesystem is modelled as a flat structure: a list of files
  (path as a list of name segments relative to the root, paired with the
  file's modification day) and a list of existing directories (paths
  relative to the root; the root itself is not listed).
* Fallible operations return Option: none models an I/O error, which the
  Rust code turns into a panic that aborts the whole operation.
* The concurrent per-file tasks are independent; they are modelled by one
  sequential schedule (files are processed in listing order, and in the
  reverse direction the files of a directory are processed before its
  sub-directories are recursed into).
-/

/-! ### Civil-date arithmetic (chrono's Datelike view of a timestamp) -/

/-- Day number of a Gregorian civil date (days since 1970-01-01). -/
def daysFromCivil (y m d : Int) : Int :=
  let y' : Int := if m ≤ 2 then y - 1 else y
  let era : Int := Int.fdiv y' 400
  let yoe : Int := y' - era * 400
  let doy : Int := Int.fdiv (153 * (if m > 2 then m - 3 else m + 9) + 2) 5 + d - 1
  let doe : Int := yoe * 365 + Int.fdiv yoe 4 - Int.fdiv yoe 100 + doy
  era * 146097 + doe - 719468

/-- Gregorian civil date (year, month, day) of a day number. -/
def civilFromDays (z : Int) : Int × Int × Int :=
  let z' : Int := z + 719468
  let era : Int := Int.fdiv z' 146097
  let doe : Int := z' - era * 146097
  let yoe : Int := Int.fdiv (doe - Int.fdiv doe 1460 + Int.fdiv doe 36524 - Int.fdiv doe 146096) 365
  let y : Int := yoe + era * 400
  let doy : Int := doe - (365 * yoe + Int.fdiv yoe 4 - Int.fdiv yoe 100)
  let mp : Int := Int.fdiv (5 * doy + 2) 153
  let d : Int := doy - Int.fdiv (153 * mp + 2) 5 + 1
  let m : Int := if mp < 10 then mp + 3 else mp - 9
  (if m ≤ 2 then y + 1 else y, m, d)

/-- Year of the modification date (datetime.year() in main.rs line 55). -/
def yearOf (z : Int) : Int := (civilFromDays z).1

/-- Month (1..12) of the modification date. -/
def monthOf (z : Int) : Int := (civilFromDays z).2.1

/-- Day of month of the modification date. -/
def dayOf (z : Int) : Int := (civilFromDays z).2.2

/-- Weekday numbering with Sunday = 0 (chrono's num_days_from_sunday);
day number 0 (1970-01-01) is a Thursday, hence the offset 4. -/
def numDaysFromSunday (z : Int) : Int := (z + 4) % 7

/-- The match in main.rs lines 60-63: Weekday::Sun maps to 0, every other
weekday to its num_days_from_sunday value. -/
def daysSinceSunday (z : Int) : Int :=
  if numDaysFromSunday z = 0 then 0 else numDaysFromSunday z

/-- previous_sunday (main.rs line 64): the modification date minus
days_since_sunday days. -/
def previousSunday (z : Int) : Int := z - daysSinceSunday z

/-- Full English month name, chrono's %B format specifier. -/
def englishMonthName (m : Int) : String :=
  if m = 1 then "January" else if m = 2 then "February" else if m = 3 then "March"
  else if m = 4 then "April" else if m = 5 then "May" else if m = 6 then "June"
  else if m = 7 then "July" else if m = 8 then "August" else if m = 9 then "September"
  else if m = 10 then "October" else if m = 11 then "November" else if m = 12 then "December"
  else ""

/-- Zero-pad a natural number to at least four digits. -/
def padNat4 (n : Nat) : String :=
  if n < 10 then "000" ++ toString n
  else if n < 100 then "00" ++ toString n
  else if n < 1000 then "0" ++ toString n
  else toString n

/-- Year as printed by chrono's %Y: at least four digits, sign for negative years. -/
def pad4 (y : Int) : String :=
  if y < 0 then "-" ++ padNat4 (Int.toNat (-y)) else padNat4 (Int.toNat y)

/-- Month or day as printed by chrono's %m / %d: two digits, zero-padded. -/
def pad2 (n : Int) : String :=
  if 0 ≤ n ∧ n < 10 then "0" ++ toString n else toString n

/-- Date formatted as %Y-%m-%d. -/
def formatYmd (z : Int) : String :=
  pad4 (yearOf z) ++ "-" ++ pad2 (monthOf z) ++ "-" ++ pad2 (dayOf z)

/-- The year folder name (year.to_string(), main.rs line 70). -/
def yearString (z : Int) : String := toString (yearOf z)

/-- The month folder name (datetime.format("%B"), main.rs line 66):
derived from the modification date itself, not from the bucketed Sunday. -/
def monthNameOf (z : Int) : String := englishMonthName (monthOf z)

/-- The week folder name (main.rs line 67). -/
def weekFolderName (z : Int) : String := "week of " ++ formatYmd (previousSunday z)

/-- The three relative path segments year/monthName/weekFolder created for a
file modified on day z (main.rs lines 70-72). -/
def bucketSegments (z : Int) : List String :=
  [yearString z, monthNameOf z, weekFolderName z]

/-- Destination path (relative to the root) of a file with base name and
modification day (main.rs line 76). -/
def destPath (name : String) (z : Int) : List String :=
  bucketSegments z ++ [name]

/-- The bucket path as a single relative path string. -/
def bucketPath (z : Int) : String :=
  yearString z ++ "/" ++ monthNameOf z ++ "/" ++ weekFolderName z

/-! ### Filesystem model -/

/-- Filesystem state: files (root-relative path segments and modification
day) and existing directories (root-relative; the root is not listed). -/
structure FS where
  files : List (List String × Int)
  dirs : List (List String)
deriving DecidableEq

/-- Base name of a path (the final segment). -/
def lastName (p : List String) : String := p.getLastD ""

/-- Metadata / modification-time read for a path (fs::metadata + modified()):
some mtime when a file exists at the path, none when the read fails. -/
def lookupFile (fs : FS) (p : List String) : Option Int :=
  (fs.files.find? (fun e => decide (e.1 = p))).map Prod.snd

/-- The nonempty prefixes of a path: all intermediate components that
create_dir_all walks through, ending with the path itself. -/
def nonemptyPrefixes (p : List String) : List (List String) :=
  (List.range p.length).map (fun k => p.take (k + 1))

/-- Append each element that is not already present (directory creation is
idempotent for already-existing directories). -/
def insertAll (ds : List (List String)) (l : List (List String)) : List (List String) :=
  l.foldl (fun ds q => if q ∈ ds then ds else ds ++ [q]) ds

/-- create_dir_all (main.rs line 74): creates every missing component of the
path; fails if any component exists as a regular file. -/
def createDirAll (fs : FS) (p : List String) : Option FS :=
  if (nonemptyPrefixes p).any (fun q => fs.files.any (fun e => decide (e.1 = q))) then none
  else some { fs with dirs := insertAll fs.dirs (nonemptyPrefixes p) }

/-- rename (main.rs lines 77-79 and 101-103): fails when the source is
missing or the destination is an existing directory; atomically replaces an
existing file at the destination. -/
def renameFile (fs : FS) (src dst : List String) : Option FS :=
  match lookupFile fs src with
  | none => none
  | some t =>
    if dst ∈ fs.dirs then none
    else some { fs with
      files := fs.files.filter (fun e => decide (e.1 ≠ src ∧ e.1 ≠ dst)) ++ [(dst, t)] }

/-- organize_file (main.rs lines 52-82).  A failing metadata or
modified-time read silently skips the file (the if-let Ok pattern); a
failing create_dir_all or rename is a fatal error (.expect). -/
def organizeFile (fs : FS) (name : String) : Option FS :=
  match lookupFile fs [name] with
  | none => some fs
  | some t =>
    match createDirAll fs (bucketSegments t) with
    | none => none
    | some fs1 => renameFile fs1 [name] (destPath name t)

/-- Names of the regular files directly inside the root, in listing order
(the path.is_file() filter in main.rs line 39). -/
def rootFileNames (fs : FS) : List String :=
  fs.files.filterMap (fun e =>
    match e.1 with
    | [n] => some n
    | _ => none)

/-- One sequential schedule of the per-file tasks spawned by organize
(main.rs lines 38-49): a failing task aborts the whole operation. -/
def organizeList (fs : FS) : List String → Option FS
  | [] => some fs
  | n :: ns =>
    match organizeFile fs n with
    | none => none
    | some fs1 => organizeList fs1 ns

/-- organize (main.rs lines 34-50): lists the immediate children of the
root and organizes each regular file among them. -/
def organize (fs : FS) : Option FS :=
  organizeList fs (rootFileNames fs)

/-- The regular files directly inside a directory, as (base name, mtime). -/
def filesInDir (fs : FS) (cur : List String) : List (String × Int) :=
  fs.files.filterMap (fun e =>
    if e.1.take cur.length = cur then
      match e.1.drop cur.length with
      | [n] => some (n, e.2)
      | _ => none
    else none)

/-- The names of the sub-directories directly inside a directory. -/
def subdirNamesIn (fs : FS) (cur : List String) : List String :=
  fs.dirs.filterMap (fun d =>
    if d.take cur.length = cur then
      match d.drop cur.length with
      | [n] => some n
      | _ => none
    else none)

/-- Move each listed file of a directory to the root, keeping its base name
(main.rs lines 99-104); a failing rename aborts the operation. -/
def moveFilesToRoot (fs : FS) (cur : List String) : List String → Option FS
  | [] => some fs
  | n :: ns =>
    match renameFile fs (cur ++ [n]) [n] with
    | none => none
    | some fs1 => moveFilesToRoot fs1 cur ns

/-- Sequence a fallible step over a list of names, aborting on failure
(the join of the concurrent sub-tasks in main.rs lines 114-116). -/
def foldOptList (f : FS → String → Option FS) : FS → List String → Option FS
  | fs, [] => some fs
  | fs, n :: ns =>
    match f fs n with
    | none => none
    | some fs1 => foldOptList f fs1 ns

/-- reverse_organize_dir (main.rs lines 90-117): move the files of the
current directory to the root, then recurse into each sub-directory.  The
fuel argument bounds the recursion depth; reverseOrganize supplies enough
fuel for the whole directory tree. -/
def reverseOrganizeDir : Nat → FS → List String → Option FS
  | 0, _, _ => none
  | fuel + 1, fs, cur =>
    match moveFilesToRoot fs cur ((filesInDir fs cur).map Prod.fst) with
    | none => none
    | some fs1 => foldOptList (fun s n => reverseOrganizeDir fuel s (cur ++ [n])) fs1 (subdirNamesIn fs1 cur)

/-- An upper bound for the directory nesting depth of the filesystem. -/
def maxDirDepth (fs : FS) : Nat :=
  fs.dirs.foldl (fun a d => max a d.length) 0

/-- reverse_organize (main.rs lines 84-88): recursively flatten the whole
tree below the root back into the root. -/
def reverseOrganize (fs : FS) : Option FS :=
  reverseOrganizeDir (maxDirDepth fs + 1) fs []

/-- The effect of one traversal of reverse_organize_dir rooted at cur on a
single file entry: every file below cur moves to the root under its base
name, every other file is untouched. -/
def movedIf (cur : List String) (e : List String × Int) : List String × Int :=
  if cur <+: e.1 then ([lastName e.1], e.2) else e

/-- A root-level file entry for a (base name, mtime) pair. -/
def rootEntry (pr : String × Int) : List String × Int := ([pr.1], pr.2)

/-- The organized entry for a (base name, mtime) pair. -/
def destEntry (pr : String × Int) : List String × Int := (destPath pr.1 pr.2, pr.2)

/-- Relocate an entry to the root, keeping its base name. -/
def rootify (e : List String × Int) : List String × Int := ([lastName e.1], e.2)

/-- Well-formedness of the directory list: the root is not listed and the
list is closed under nonempty prefixes (a directory's parent chain exists). -/
def DirsWF (D : List (List String)) : Prop :=
  [] ∉ D ∧ ∀ d ∈ D, ∀ q ∈ nonemptyPrefixes d, q ∈ D

/-- Invariant of the reverse traversal over a fixed directory list D:
the directories are exactly D, file paths are nonempty, every file's parent
is the root or a directory of D, base names are pairwise distinct, no base
name is the name of a root-level directory, and no file path is a
directory. -/
def RevInv (D : List (List String)) (fs : FS) : Prop :=
  fs.dirs = D ∧
  (∀ e ∈ fs.files, e.1 ≠ []) ∧
  (∀ e ∈ fs.files, e.1.dropLast = [] ∨ e.1.dropLast ∈ D) ∧
  (fs.files.map (fun e => lastName e.1)).Nodup ∧
  (∀ e ∈ fs.files, [lastName e.1] ∉ D) ∧
  (∀ e ∈ fs.files, e.1 ∉ D)

/-! ### Basic lemmas about the bucket computation -/

theorem daysSinceSunday_eq_numDaysFromSunday (z : Int) :
    daysSinceSunday z = numDaysFromSunday z := by
  unfold daysSinceSunday numDaysFromSunday
  split <;> omega

theorem numDaysFromSunday_previousSunday (z : Int) :
    numDaysFromSunday (previousSunday z) = 0 := by
  unfold previousSunday daysSinceSunday numDaysFromSunday
  split <;> omega

theorem destPath_length (name : String) (z : Int) : (destPath name z).length = 4 := rfl

/-! ### Lemmas about the filesystem primitives -/

theorem lookupFile_congr (fs₁ fs₂ : FS) (p : List String) (h : fs₁.files = fs₂.files) :
    lookupFile fs₁ p = lookupFile fs₂ p := by
  unfold lookupFile
  rw [h]

theorem createDirAll_files (fs fs' : FS) (p : List String)
    (h : createDirAll fs p = some fs') : fs'.files = fs.files := by
  unfold createDirAll at h
  split at h
  · exact absurd h (by simp)
  · cases h
    rfl

/-! ### Claim C1 -/

/-- Claim C1 counterexample: organize_file on a path whose metadata read
fails completes without error (the file is silently skipped and the state
is unchanged), so a metadata-read failure is not fatal. -/
theorem c1_metadata_failure_not_fatal :
    organizeFile ⟨[], []⟩ "ghost.txt" = some ⟨[], []⟩ := rfl

/-- Claim C1 (amended): a failing metadata / modified-time read silently
skips the file and the operation continues with the state unchanged, while
a directory-creation or rename failure is fatal: the failing per-file task
aborts the whole operation. -/
theorem c1_error_policy :
    (∀ (fs : FS) (n : String), lookupFile fs [n] = none → organizeFile fs n = some fs) ∧
    (∀ (fs : FS) (n : String) (t : Int), lookupFile fs [n] = some t →
      createDirAll fs (bucketSegments t) = none → organizeFile fs n = none) ∧
    (∀ (fs fs₁ : FS) (n : String) (t : Int), lookupFile fs [n] = some t →
      createDirAll fs (bucketSegments t) = some fs₁ →
      renameFile fs₁ [n] (destPath n t) = none → organizeFile fs n = none) ∧
    (∀ (fs : FS) (n : String) (ns : List String),
      organizeFile fs n = none → organizeList fs (n :: ns) = none) := by
  refine ⟨?_, ?_, ?_, ?_⟩
  · intro fs n h
    simp [organizeFile, h]
  · intro fs n t h1 h2
    simp [organizeFile, h1, h2]
  · intro fs fs₁ n t h1 h2 h3
    simp [organizeFile, h1, h2, h3]
  · intro fs n ns h
    simp [organizeList, h]

/-- Claim C1 witness: the amended policy at concrete inputs. -/
theorem c1_error_policy_witness :
    organizeFile ⟨[], []⟩ "gone.txt" = some ⟨[], []⟩ ∧
    organizeList ⟨[(["2024"], daysFromCivil 2024 1 1)], []⟩ ["2024"] = none := by
  constructor
  · exact c1_error_policy.1 ⟨[], []⟩ "gone.txt" rfl
  · refine c1_error_policy.2.2.2 ⟨[(["2024"], daysFromCivil 2024 1 1)], []⟩ "2024" [] ?_
    exact c1_error_policy.2.1 ⟨[(["2024"], daysFromCivil 2024 1 1)], []⟩ "2024"
      (daysFromCivil 2024 1 1) (by decide) (by decide)

/-! ### Claim C2 -/

/-- Claim C2: the week-start date in the bucket label is the modification
date minus daysSinceSunday days, where daysSinceSunday is the number of
days since the most recent Sunday in Sunday = 0 numbering (so it is between
0 and 6, the result is itself a Sunday, a Wednesday yields the Sunday three
days earlier, and a Sunday yields itself). -/
theorem c2_week_start_rule (z : Int) :
    previousSunday z = z - daysSinceSunday z ∧
    daysSinceSunday z = numDaysFromSunday z ∧
    0 ≤ daysSinceSunday z ∧ daysSinceSunday z < 7 ∧
    numDaysFromSunday (previousSunday z) = 0 ∧
    numDaysFromSunday (daysFromCivil 2024 3 6) = 3 ∧
    previousSunday (daysFromCivil 2024 3 6) = daysFromCivil 2024 3 3 ∧
    numDaysFromSunday (daysFromCivil 2024 3 3) = 0 ∧
    previousSunday (daysFromCivil 2024 3 3) = daysFromCivil 2024 3 3 := by
  refine ⟨rfl, daysSinceSunday_eq_numDaysFromSunday z, ?_, ?_,
    numDaysFromSunday_previousSunday z, by decide, by decide, by decide, by decide⟩
  · unfold daysSinceSunday numDaysFromSunday
    split <;> omega
  · unfold daysSinceSunday numDaysFromSunday
    split <;> omega

/-! ### Claim C10 -/

/-- Claim C10: the computed week-start date falls on a Sunday (weekday
number 0), lies at most six days before and never after the modification
date, and the special-case match mapping Sunday to 0 is equivalent to
using num_days_from_sunday unconditionally. -/
theorem c10_previous_sunday_invariant (z : Int) :
    numDaysFromSunday (previousSunday z) = 0 ∧
    previousSunday z ≤ z ∧
    z - 6 ≤ previousSunday z ∧
    daysSinceSunday z = numDaysFromSunday z := by
  refine ⟨numDaysFromSunday_previousSunday z, ?_, ?_, daysSinceSunday_eq_numDaysFromSunday z⟩
  · unfold previousSunday daysSinceSunday numDaysFromSunday
    split <;> omega
  · unfold previousSunday daysSinceSunday numDaysFromSunday
    split <;> omega

/-! ### Claim C9 -/

/-- Claim C9: the bucket-path computation is a pure function of the
modification day: two computations on equal inputs yield identical
output (path string, path segments, and full destination path). -/
theorem c9_bucket_deterministic (z w : Int) (h : z = w) :
    bucketPath z = bucketPath w ∧ bucketSegments z = bucketSegments w ∧
    ∀ name, destPath name z = destPath name w := by
  subst h
  exact ⟨rfl, rfl, fun _ => rfl⟩

/-- Claim C9 witness. -/
theorem c9_bucket_deterministic_witness :
    bucketPath (daysFromCivil 2024 3 6) = bucketPath (daysFromCivil 2024 3 6) ∧
    bucketSegments (daysFromCivil 2024 3 6) = bucketSegments (daysFromCivil 2024 3 6) ∧
    ∀ name, destPath name (daysFromCivil 2024 3 6) = destPath name (daysFromCivil 2024 3 6) :=
  c9_bucket_deterministic (daysFromCivil 2024 3 6) (daysFromCivil 2024 3 6) rfl

/-! ### Claim C4 -/

/-- Claim C4: when the computed Sunday falls in an earlier month than the
modification date, the month segment of the bucket is still derived from
the modification date's own month, while the week folder's date string is
formatted from the Sunday's date; concretely, 2024-03-01 is bucketed as
2024/March/week of 2024-02-25. -/
theorem c4_month_from_modification_date (z : Int)
    (hcross : monthOf (previousSunday z) ≠ monthOf z) :
    bucketSegments z =
      [yearString z, englishMonthName (monthOf z), "week of " ++ formatYmd (previousSunday z)] ∧
    weekFolderName z = "week of " ++ (pad4 (yearOf (previousSunday z)) ++ "-" ++
      pad2 (monthOf (previousSunday z)) ++ "-" ++ pad2 (dayOf (previousSunday z))) ∧
    bucketSegments (daysFromCivil 2024 3 1) = ["2024", "March", "week of 2024-02-25"] := by
  exact ⟨rfl, rfl, by decide⟩

/-- Claim C4 witness: 2024-03-01 is a date whose most recent Sunday
(2024-02-25) falls in the previous month. -/
theorem c4_month_from_modification_date_witness :
    bucketSegments (daysFromCivil 2024 3 1) =
      [yearString (daysFromCivil 2024 3 1),
        englishMonthName (monthOf (daysFromCivil 2024 3 1)),
        "week of " ++ formatYmd (previousSunday (daysFromCivil 2024 3 1))] ∧
    weekFolderName (daysFromCivil 2024 3 1) = "week of " ++
      (pad4 (yearOf (previousSunday (daysFromCivil 2024 3 1))) ++ "-" ++
       pad2 (monthOf (previousSunday (daysFromCivil 2024 3 1))) ++ "-" ++
       pad2 (dayOf (previousSunday (daysFromCivil 2024 3 1)))) ∧
    bucketSegments (daysFromCivil 2024 3 1) = ["2024", "March", "week of 2024-02-25"] :=
  c4_month_from_modification_date (daysFromCivil 2024 3 1) (by decide)

/-! ### Claim C8 -/

/-- Claim C8: on an empty directory both operations complete without error
and leave the filesystem unchanged: no folder is created, no file moved. -/
theorem c8_empty_directory :
    organize ⟨[], []⟩ = some ⟨[], []⟩ ∧ reverseOrganize ⟨[], []⟩ = some ⟨[], []⟩ :=
  ⟨rfl, rfl⟩

/-! ### Generic list helpers -/

theorem mem_insertAll (x : List String) (ds l : List (List String)) :
    x ∈ insertAll ds l ↔ x ∈ ds ∨ x ∈ l := by
  induction l generalizing ds with
  | nil => simp [insertAll]
  | cons q l ih =>
    show x ∈ insertAll (if q ∈ ds then ds else ds ++ [q]) l ↔ x ∈ ds ∨ x ∈ q :: l
    rw [ih]
    by_cases hq : q ∈ ds
    · simp only [if_pos hq, List.mem_cons]
      constructor
      · rintro (h | h)
        · exact Or.inl h
        · exact Or.inr (Or.inr h)
      · rintro (h | h | h)
        · exact Or.inl h
        · exact Or.inl (h ▸ hq)
        · exact Or.inr h
    · simp only [if_neg hq, List.mem_append, List.mem_singleton, List.mem_cons]
      tauto

theorem mem_nonemptyPrefixes (q p : List String) :
    q ∈ nonemptyPrefixes p ↔ q ≠ [] ∧ q <+: p := by
  unfold nonemptyPrefixes
  simp only [List.mem_map, List.mem_range]
  constructor
  · rintro ⟨k, hk, rfl⟩
    refine ⟨?_, List.take_prefix _ _⟩
    have hlen : (p.take (k + 1)).length = min (k + 1) p.length := List.length_take _ _
    intro h
    rw [h] at hlen
    simp only [List.length_nil] at hlen
    omega
  · rintro ⟨hne, hpre⟩
    have hlen0 : q.length ≠ 0 := fun h => hne (List.length_eq_zero.mp h)
    refine ⟨q.length - 1, ?_, ?_⟩
    · have := hpre.length_le
      omega
    · have hq : q.length - 1 + 1 = q.length := by omega
      rw [hq]
      exact (List.prefix_iff_eq_take.mp hpre).symm

theorem lastName_concat (l : List String) (a : String) : lastName (l ++ [a]) = a := by
  unfold lastName
  exact List.getLastD_concat _ _ _

theorem lastName_singleton (a : String) : lastName [a] = a := rfl

theorem filterMap_sublist_map {α β : Type} (l : List α) (g : α → Option β) (h : α → β)
    (hg : ∀ a b, g a = some b → b = h a) : List.Sublist (l.filterMap g) (l.map h) := by
  induction l with
  | nil => simp
  | cons a l ih =>
    rw [List.map_cons, List.filterMap_cons]
    cases hga : g a with
    | none => exact ih.cons _
    | some b => rw [hg a b hga]; exact ih.cons₂ _

theorem le_foldl_max (l : List (List String)) :
    ∀ a : Nat, a ≤ l.foldl (fun a d => max a d.length) a := by
  induction l with
  | nil => intro a; simp
  | cons e l ih =>
    intro a
    calc a ≤ max a e.length := Nat.le_max_left _ _
    _ ≤ l.foldl (fun a d => max a d.length) (max a e.length) := ih _

theorem length_le_foldl_max (l : List (List String)) :
    ∀ (a : Nat) (d : List String), d ∈ l → d.length ≤ l.foldl (fun a d => max a d.length) a := by
  induction l with
  | nil => intro a d h; cases h
  | cons e l ih =>
    intro a d h
    rcases List.mem_cons.mp h with h | h
    · subst h
      calc d.length ≤ max a d.length := Nat.le_max_right _ _
      _ ≤ _ := le_foldl_max l _
    · exact ih _ d h

theorem length_le_maxDirDepth (fs : FS) (d : List String) (hd : d ∈ fs.dirs) :
    d.length ≤ maxDirDepth fs :=
  length_le_foldl_max fs.dirs 0 d hd

theorem countP_path_eq_one (l : List (List String × Int)) (p : List String) (t : Int)
    (hm : (p, t) ∈ l) (hn : (l.map (fun e => lastName e.1)).Nodup) :
    l.countP (fun e => decide (e.1 = p)) = 1 := by
  induction l with
  | nil => cases hm
  | cons e l ih =>
    rw [List.map_cons, List.nodup_cons] at hn
    rcases List.mem_cons.mp hm with h | h
    · subst h
      rw [List.countP_cons_of_pos _ _ (by simp)]
      have hz : l.countP (fun e => decide (e.1 = p)) = 0 := by
        rw [List.countP_eq_zero]
        intro a ha hp
        rw [decide_eq_true_eq] at hp
        exact hn.1 (List.mem_map.mpr ⟨a, ha, by rw [hp]⟩)
      omega
    · have hne : ¬ (e.1 = p) := by
        intro hep
        exact hn.1 (List.mem_map.mpr ⟨(p, t), h, by rw [hep]⟩)
      rw [List.countP_cons_of_neg _ _ (by simpa using hne)]
      exact ih h hn.2

theorem filter_append_perm_map (l : List (List String × Int)) (src : List String)
    (y : List String × Int)
    (h1 : l.countP (fun e => decide (e.1 = src)) = 1)
    (h2 : l.countP (fun e => decide (e.1 = y.1 ∧ e.1 ≠ src)) = 0) :
    List.Perm (l.filter (fun e => decide (e.1 ≠ src ∧ e.1 ≠ y.1)) ++ [y])
      (l.map (fun e => if e.1 = src then y else e)) := by
  induction l with
  | nil => simp at h1
  | cons e l ih =>
    rw [List.countP_cons] at h1 h2
    have h2h : ¬ (e.1 = y.1 ∧ e.1 ≠ src) := by
      intro hc
      have hd : decide (e.1 = y.1 ∧ e.1 ≠ src) = true := by simpa using hc
      rw [hd, if_pos rfl] at h2
      omega
    rw [if_neg (by simpa using h2h)] at h2
    have h2'' : l.countP (fun e => decide (e.1 = y.1 ∧ e.1 ≠ src)) = 0 := by omega
    by_cases hsrc : e.1 = src
    · have hd1 : decide (e.1 = src) = true := by simpa using hsrc
      rw [hd1, if_pos rfl] at h1
      have h1' : l.countP (fun e => decide (e.1 = src)) = 0 := by omega
      have hnosrc : ∀ a ∈ l, ¬ (a.1 = src) := by
        intro a ha
        have := List.countP_eq_zero.mp h1' a ha
        simpa using this
      have hfl : l.filter (fun e => decide (e.1 ≠ src ∧ e.1 ≠ y.1)) = l := by
        rw [List.filter_eq_self]
        intro a ha
        rw [decide_eq_true_eq]
        refine ⟨hnosrc a ha, ?_⟩
        intro hay
        have := List.countP_eq_zero.mp h2'' a ha
        simp only [decide_eq_true_eq] at this
        exact this ⟨hay, hnosrc a ha⟩
      have hml : l.map (fun e => if e.1 = src then y else e) = l := by
        have : l.map (fun e => if e.1 = src then y else e) = l.map (fun e => e) :=
          List.map_congr_left (fun a ha => if_neg (hnosrc a ha))
        rw [this, List.map_id']
      rw [List.map_cons, if_pos hsrc, hml,
        List.filter_cons_of_neg (by simp [hsrc]), hfl]
      exact List.perm_append_singleton y l
    · rw [if_neg (by simpa using hsrc)] at h1
      have h1'' : l.countP (fun e => decide (e.1 = src)) = 1 := by omega
      have hy : ¬ (e.1 = y.1) := fun hc => h2h ⟨hc, hsrc⟩
      rw [List.map_cons, if_neg hsrc,
        List.filter_cons_of_pos (by simp [hsrc, hy]), List.cons_append]
      exact (ih h1'' h2'').cons e

theorem find_entry_of_mem_of_nodup (l : List (List String × Int)) (p : List String) (t : Int)
    (hm : (p, t) ∈ l) (hn : (l.map (fun e => lastName e.1)).Nodup) :
    l.find? (fun e => decide (e.1 = p)) = some (p, t) := by
  induction l with
  | nil => cases hm
  | cons e l ih =>
    rw [List.map_cons, List.nodup_cons] at hn
    by_cases hep : e.1 = p
    · rw [List.find?_cons_of_pos _ (by simp [hep])]
      rcases List.mem_cons.mp hm with h | h
      · rw [← h]
      · exact absurd (List.mem_map.mpr ⟨(p, t), h, by rw [hep]⟩) hn.1
    · rw [List.find?_cons_of_neg _ (by simp [hep])]
      rcases List.mem_cons.mp hm with h | h
      · rw [← h] at hep
        exact absurd rfl hep
      · exact ih h hn.2

theorem lookup_eq_of_mem_of_nodup (fs : FS) (p : List String) (t : Int)
    (hm : (p, t) ∈ fs.files) (hn : (fs.files.map (fun e => lastName e.1)).Nodup) :
    lookupFile fs p = some t := by
  unfold lookupFile
  rw [find_entry_of_mem_of_nodup fs.files p t hm hn]
  rfl

/-! ### Frame lemmas for the forward direction -/

theorem createDirAll_dirs (fs fs' : FS) (p : List String)
    (h : createDirAll fs p = some fs') :
    ∀ d, d ∈ fs'.dirs ↔ d ∈ fs.dirs ∨ d ∈ nonemptyPrefixes p := by
  unfold createDirAll at h
  split at h
  · exact absurd h (by simp)
  · cases h
    intro d
    exact mem_insertAll d _ _

theorem organizeFile_keeps (fs fs' : FS) (n : String)
    (h : organizeFile fs n = some fs') (p : List String) (t : Int)
    (hp : (p, t) ∈ fs.files) (hlen : p.length ≠ 1)
    (hdest : ∀ (m : String) (s : Int), p ≠ destPath m s) :
    (p, t) ∈ fs'.files := by
  cases hl : lookupFile fs [n] with
  | none =>
    simp only [organizeFile, hl, Option.some.injEq] at h
    rw [← h]
    exact hp
  | some t' =>
    simp only [organizeFile, hl] at h
    cases hc : createDirAll fs (bucketSegments t') with
    | none =>
      simp only [hc] at h
      cases h
    | some fsd =>
      simp only [hc] at h
      have hfiles : fsd.files = fs.files := createDirAll_files fs fsd _ hc
      simp only [renameFile, lookupFile_congr fsd fs _ hfiles, hl] at h
      split at h
      · exact absurd h (by simp)
      · rw [← Option.some.injEq] at h
        cases h
        simp only [List.mem_append]
        left
        rw [List.mem_filter, hfiles]
        refine ⟨hp, ?_⟩
        rw [decide_eq_true_eq]
        constructor
        · intro hc1
          have hc1' : p = [n] := hc1
          rw [hc1'] at hlen
          exact hlen rfl
        · exact hdest n t'

theorem organizeFile_dirs_mono (fs fs' : FS) (n : String)
    (h : organizeFile fs n = some fs') (d : List String) (hd : d ∈ fs.dirs) :
    d ∈ fs'.dirs := by
  cases hl : lookupFile fs [n] with
  | none =>
    simp only [organizeFile, hl, Option.some.injEq] at h
    rw [← h]
    exact hd
  | some t' =>
    simp only [organizeFile, hl] at h
    cases hc : createDirAll fs (bucketSegments t') with
    | none =>
      simp only [hc] at h
      cases h
    | some fsd =>
      simp only [hc] at h
      have hdirs : d ∈ fsd.dirs := (createDirAll_dirs fs fsd _ hc d).mpr (Or.inl hd)
      simp only [renameFile] at h
      cases hl2 : lookupFile fsd [n] with
      | none =>
        simp only [hl2] at h
        cases h
      | some t2 =>
        simp only [hl2] at h
        split at h
        · exact absurd h (by simp)
        · rw [← Option.some.injEq] at h
          cases h
          exact hdirs

theorem organizeFile_removed (fs fs' : FS) (n : String)
    (h : organizeFile fs n = some fs') (p : List String) (t : Int)
    (hp : (p, t) ∈ fs.files) (hout : (p, t) ∉ fs'.files) :
    p.length = 1 ∨ ∃ (m : String) (s : Int), p = destPath m s := by
  cases hl : lookupFile fs [n] with
  | none =>
    simp only [organizeFile, hl, Option.some.injEq] at h
    rw [← h] at hout
    exact absurd hp hout
  | some t' =>
    simp only [organizeFile, hl] at h
    cases hc : createDirAll fs (bucketSegments t') with
    | none =>
      simp only [hc] at h
      cases h
    | some fsd =>
      simp only [hc] at h
      have hfiles : fsd.files = fs.files := createDirAll_files fs fsd _ hc
      simp only [renameFile, lookupFile_congr fsd fs _ hfiles, hl] at h
      split at h
      · exact absurd h (by simp)
      · rw [← Option.some.injEq] at h
        cases h
        simp only [List.mem_append, List.mem_filter, hfiles] at hout
        by_cases hps : p = [n]
        · left
          rw [hps]
          rfl
        · by_cases hpd : p = destPath n t'
          · right
            exact ⟨n, t', hpd⟩
          · exact absurd (Or.inl ⟨hp, by rw [decide_eq_true_eq]; exact ⟨hps, hpd⟩⟩) hout

theorem organizeList_keeps (ns : List String) :
    ∀ (fs fs' : FS), organizeList fs ns = some fs' →
    ∀ (p : List String) (t : Int), (p, t) ∈ fs.files → p.length ≠ 1 →
    (∀ (m : String) (s : Int), p ≠ destPath m s) → (p, t) ∈ fs'.files := by
  induction ns with
  | nil =>
    intro fs fs' h p t hp _ _
    cases h
    exact hp
  | cons n ns ih =>
    intro fs fs' h p t hp hlen hdest
    cases ho : organizeFile fs n with
    | none =>
      simp only [organizeList, ho] at h
      cases h
    | some fs1 =>
      simp only [organizeList, ho] at h
      exact ih fs1 fs' h p t (organizeFile_keeps fs fs1 n ho p t hp hlen hdest) hlen hdest

theorem organizeList_dirs_mono (ns : List String) :
    ∀ (fs fs' : FS), organizeList fs ns = some fs' →
    ∀ d ∈ fs.dirs, d ∈ fs'.dirs := by
  induction ns with
  | nil =>
    intro fs fs' h d hd
    cases h
    exact hd
  | cons n ns ih =>
    intro fs fs' h d hd
    cases ho : organizeFile fs n with
    | none =>
      simp only [organizeList, ho] at h
      cases h
    | some fs1 =>
      simp only [organizeList, ho] at h
      exact ih fs1 fs' h d (organizeFile_dirs_mono fs fs1 n ho d hd)

theorem organizeList_removed (ns : List String) :
    ∀ (fs fs' : FS), organizeList fs ns = some fs' →
    ∀ (p : List String) (t : Int), (p, t) ∈ fs.files → (p, t) ∉ fs'.files →
    p.length = 1 ∨ ∃ (m : String) (s : Int), p = destPath m s := by
  induction ns with
  | nil =>
    intro fs fs' h p t hp hout
    cases h
    exact absurd hp hout
  | cons n ns ih =>
    intro fs fs' h p t hp hout
    cases ho : organizeFile fs n with
    | none =>
      simp only [organizeList, ho] at h
      cases h
    | some fs1 =>
      simp only [organizeList, ho] at h
      by_cases hmid : (p, t) ∈ fs1.files
      · exact ih fs1 fs' h p t hmid hout
      · exact organizeFile_removed fs fs1 n ho p t hp hmid

/-! ### Claim C6 -/

/-- Claim C6 counterexample: a file inside a sub-directory is not always
left unchanged by organize.  Here a pre-existing nested file sits exactly
at the destination path computed for a root-level file, and the rename
atomically overwrites it: its entry is gone afterwards. -/
theorem c6_claim_counterexample :
    ∃ fs', organize
      ⟨[(["a.txt"], daysFromCivil 2024 3 6),
        (["2024", "March", "week of 2024-03-03", "a.txt"], 999)],
       [["2024"], ["2024", "March"], ["2024", "March", "week of 2024-03-03"]]⟩ = some fs' ∧
      (["2024", "March", "week of 2024-03-03", "a.txt"], (999 : Int)) ∉ fs'.files := by
  refine ⟨⟨[(["2024", "March", "week of 2024-03-03", "a.txt"], daysFromCivil 2024 3 6)],
    [["2024"], ["2024", "March"], ["2024", "March", "week of 2024-03-03"]]⟩, ?_, ?_⟩
  · decide
  · decide

/-- Claim C6 (amended): organize lists only the immediate children of the
root and never descends into sub-directories.  Every file inside a
sub-directory whose path is not of the destination form
year/month/week-folder/name is left unchanged, every existing directory is
preserved, and a file entry can only disappear if it was a root-level file
(which is moved) or sat at a computed destination path (where a moved root
file can overwrite it). -/
theorem c6_forward_frame (fs fs' : FS) (h : organize fs = some fs') :
    (∀ (p : List String) (t : Int), (p, t) ∈ fs.files → p.length ≠ 1 →
      (∀ (m : String) (s : Int), p ≠ destPath m s) → (p, t) ∈ fs'.files) ∧
    (∀ d ∈ fs.dirs, d ∈ fs'.dirs) ∧
    (∀ (p : List String) (t : Int), (p, t) ∈ fs.files → (p, t) ∉ fs'.files →
      p.length = 1 ∨ ∃ (m : String) (s : Int), p = destPath m s) := by
  unfold organize at h
  exact ⟨fun p t hp hlen hdest => organizeList_keeps _ fs fs' h p t hp hlen hdest,
    fun d hd => organizeList_dirs_mono _ fs fs' h d hd,
    fun p t hp hout => organizeList_removed _ fs fs' h p t hp hout⟩

/-- Claim C6 witness: a root with one regular file and one sub-directory
containing a file; the nested file and the sub-directory survive organize
untouched, and only the root-level file moves. -/
theorem c6_forward_frame_witness :
    (∀ (p : List String) (t : Int),
      (p, t) ∈ (FS.mk [(["root.txt"], daysFromCivil 2024 3 6), (["sub", "inner.txt"], 7)]
        [["sub"]]).files →
      p.length ≠ 1 → (∀ (m : String) (s : Int), p ≠ destPath m s) →
      (p, t) ∈ (FS.mk [(["sub", "inner.txt"], 7),
        (["2024", "March", "week of 2024-03-03", "root.txt"], daysFromCivil 2024 3 6)]
        [["sub"], ["2024"], ["2024", "March"], ["2024", "March", "week of 2024-03-03"]]).files) ∧
    (∀ d ∈ (FS.mk [(["root.txt"], daysFromCivil 2024 3 6), (["sub", "inner.txt"], 7)]
        [["sub"]]).dirs,
      d ∈ (FS.mk [(["sub", "inner.txt"], 7),
        (["2024", "March", "week of 2024-03-03", "root.txt"], daysFromCivil 2024 3 6)]
        [["sub"], ["2024"], ["2024", "March"], ["2024", "March", "week of 2024-03-03"]]).dirs) ∧
    (∀ (p : List String) (t : Int),
      (p, t) ∈ (FS.mk [(["root.txt"], daysFromCivil 2024 3 6), (["sub", "inner.txt"], 7)]
        [["sub"]]).files →
      (p, t) ∉ (FS.mk [(["sub", "inner.txt"], 7),
        (["2024", "March", "week of 2024-03-03", "root.txt"], daysFromCivil 2024 3 6)]
        [["sub"], ["2024"], ["2024", "March"], ["2024", "March", "week of 2024-03-03"]]).files →
      p.length = 1 ∨ ∃ (m : String) (s : Int), p = destPath m s) :=
  c6_forward_frame _ _ (by decide)

/-! ### Claim C3 -/

/-- Claim C3: a successfully organized root-level file ends up at the
destination path year/monthName/week-folder/name (base name preserved), it
is gone from the root, and on a concrete date the segments are the
four-digit year, the full English month name, and "week of YYYY-MM-DD"
for the computed Sunday. -/
theorem c3_destination (fs fs' : FS) (name : String) (t : Int)
    (hlook : lookupFile fs [name] = some t)
    (horg : organizeFile fs name = some fs') :
    (destPath name t, t) ∈ fs'.files ∧
    (∀ s : Int, ([name], s) ∉ fs'.files) ∧
    destPath name t = [yearString t, monthNameOf t, weekFolderName t, name] ∧
    destPath "notes.txt" (daysFromCivil 2024 3 6) =
      ["2024", "March", "week of 2024-03-03", "notes.txt"] := by
  simp only [organizeFile, hlook] at horg
  cases hc : createDirAll fs (bucketSegments t) with
  | none =>
    simp only [hc] at horg
    cases horg
  | some fsd =>
    simp only [hc] at horg
    have hfiles : fsd.files = fs.files := createDirAll_files fs fsd _ hc
    simp only [renameFile, lookupFile_congr fsd fs _ hfiles, hlook] at horg
    split at horg
    · exact absurd horg (by simp)
    · rw [← Option.some.injEq] at horg
      cases horg
      refine ⟨?_, ?_, rfl, by decide⟩
      · simp only [List.mem_append, List.mem_singleton]
        right
        trivial
      · intro s hmem
        simp only [List.mem_append, List.mem_filter, List.mem_singleton] at hmem
        rcases hmem with ⟨_, hpred⟩ | hmem
        · rw [decide_eq_true_eq] at hpred
          exact hpred.1 rfl
        · have hlen := congrArg (fun e : List String × Int => e.1.length) hmem
          simp only [destPath_length] at hlen
          simp at hlen

/-- Claim C3 witness: a concrete file modified on Wednesday 2024-03-06. -/
theorem c3_destination_witness :
    (destPath "notes.txt" (daysFromCivil 2024 3 6), daysFromCivil 2024 3 6) ∈
      (FS.mk [(["2024", "March", "week of 2024-03-03", "notes.txt"], daysFromCivil 2024 3 6)]
        [["2024"], ["2024", "March"], ["2024", "March", "week of 2024-03-03"]]).files ∧
    (∀ s : Int, (["notes.txt"], s) ∉
      (FS.mk [(["2024", "March", "week of 2024-03-03", "notes.txt"], daysFromCivil 2024 3 6)]
        [["2024"], ["2024", "March"], ["2024", "March", "week of 2024-03-03"]]).files) ∧
    destPath "notes.txt" (daysFromCivil 2024 3 6) =
      [yearString (daysFromCivil 2024 3 6), monthNameOf (daysFromCivil 2024 3 6),
        weekFolderName (daysFromCivil 2024 3 6), "notes.txt"] ∧
    destPath "notes.txt" (daysFromCivil 2024 3 6) =
      ["2024", "March", "week of 2024-03-03", "notes.txt"] :=
  c3_destination ⟨[(["notes.txt"], daysFromCivil 2024 3 6)], []⟩ _ "notes.txt"
    (daysFromCivil 2024 3 6) (by decide) (by decide)

/-! ### The forward pass on a flat directory -/

theorem bucketSegments_length (z : Int) : (bucketSegments z).length = 3 := rfl

theorem lastName_destPath (n : String) (z : Int) : lastName (destPath n z) = n :=
  lastName_concat _ _

theorem renameFile_eq (fs : FS) (src dst : List String) (t : Int)
    (hl : lookupFile fs src = some t) (hd : dst ∉ fs.dirs) :
    renameFile fs src dst =
      some ⟨fs.files.filter (fun e => decide (e.1 ≠ src ∧ e.1 ≠ dst)) ++ [(dst, t)], fs.dirs⟩ := by
  simp only [renameFile, hl]
  rw [if_neg hd]

theorem organizeList_flat (pending : List (String × Int)) :
    ∀ (done : List (List String × Int)) (ds : List (List String)),
    (pending.map Prod.fst).Nodup →
    (∀ pr ∈ pending, ∀ qr ∈ pending, pr.1 ≠ yearString qr.2) →
    (∀ e ∈ done, e.1.length = 4) →
    (∀ e ∈ done, ∀ pr ∈ pending, lastName e.1 ≠ pr.1) →
    (∀ d ∈ ds, d.length ≤ 3) →
    ∃ ds', organizeList ⟨pending.map rootEntry ++ done, ds⟩ (pending.map Prod.fst) =
        some ⟨done ++ pending.map destEntry, ds'⟩ ∧
      (∀ d ∈ ds', d ∈ ds ∨ ∃ pr ∈ pending, d ∈ nonemptyPrefixes (bucketSegments pr.2)) ∧
      (∀ d ∈ ds, d ∈ ds') ∧
      (∀ pr ∈ pending, ∀ q ∈ nonemptyPrefixes (bucketSegments pr.2), q ∈ ds') := by
  induction pending with
  | nil =>
    intro done ds _ _ _ _ _
    refine ⟨ds, by simp [organizeList], ?_, fun d hd => hd, ?_⟩
    · intro d hd
      exact Or.inl hd
    · intro pr hpr
      cases hpr
  | cons hd0 rest ih =>
    intro done ds hnodup hyear hdone4 hdoneName hds3
    obtain ⟨n, t⟩ := hd0
    rw [List.map_cons, List.nodup_cons] at hnodup
    have hlook : lookupFile ⟨((n, t) :: rest).map rootEntry ++ done, ds⟩ [n] = some t := by
      unfold lookupFile
      rw [List.map_cons, List.cons_append, List.find?_cons_of_pos _ (by simp [rootEntry])]
      rfl
    have hno : ¬ ((nonemptyPrefixes (bucketSegments t)).any
        (fun q => (((n, t) :: rest).map rootEntry ++ done).any (fun e => decide (e.1 = q))) = true) := by
      intro hcol
      rw [List.any_eq_true] at hcol
      obtain ⟨q, hq, hcol⟩ := hcol
      rw [List.any_eq_true] at hcol
      obtain ⟨e, he, heq⟩ := hcol
      rw [decide_eq_true_eq] at heq
      rw [mem_nonemptyPrefixes] at hq
      obtain ⟨hqne, hqpre⟩ := hq
      rcases List.mem_append.mp he with hm | hm
      · obtain ⟨pr', hpr', hre⟩ := List.mem_map.mp hm
        have hq1 : q = [pr'.1] := by
          rw [← heq, ← hre]
          rfl
        rw [hq1] at hqpre
        obtain ⟨r, hr⟩ := hqpre
        have hr' : pr'.1 :: r = [yearString t, monthNameOf t, weekFolderName t] := hr
        have h1 : pr'.1 = yearString t := by
          injection hr'
        exact hyear pr' hpr' (n, t) (List.mem_cons_self _ _) h1
      · have h4 := hdone4 e hm
        have hle : q.length ≤ 3 := by
          have := hqpre.length_le
          rw [bucketSegments_length] at this
          exact this
        have hq4 : q.length = 4 := by
          rw [← heq]
          exact h4
        omega
    have hcdir : createDirAll ⟨((n, t) :: rest).map rootEntry ++ done, ds⟩ (bucketSegments t) =
        some ⟨((n, t) :: rest).map rootEntry ++ done,
          insertAll ds (nonemptyPrefixes (bucketSegments t))⟩ := by
      unfold createDirAll
      rw [if_neg hno]
    have hlook2 : lookupFile ⟨((n, t) :: rest).map rootEntry ++ done,
        insertAll ds (nonemptyPrefixes (bucketSegments t))⟩ [n] = some t := by
      unfold lookupFile
      rw [List.map_cons, List.cons_append, List.find?_cons_of_pos _ (by simp [rootEntry])]
      rfl
    have hdstnd : destPath n t ∉ insertAll ds (nonemptyPrefixes (bucketSegments t)) := by
      intro hmem
      have h4 := destPath_length n t
      rcases (mem_insertAll _ _ _).mp hmem with hm | hm
      · have := hds3 _ hm
        omega
      · rw [mem_nonemptyPrefixes] at hm
        have := hm.2.length_le
        rw [bucketSegments_length] at this
        omega
    have hren := renameFile_eq ⟨((n, t) :: rest).map rootEntry ++ done,
        insertAll ds (nonemptyPrefixes (bucketSegments t))⟩ [n] (destPath n t) t hlook2 hdstnd
    have hfilter : (((n, t) :: rest).map rootEntry ++ done).filter
        (fun e => decide (e.1 ≠ [n] ∧ e.1 ≠ destPath n t)) = rest.map rootEntry ++ done := by
      rw [List.map_cons, List.cons_append, List.filter_cons_of_neg (by simp [rootEntry]),
        List.filter_append]
      congr 1
      · rw [List.filter_eq_self]
        intro e he
        obtain ⟨pr', hpr', hre⟩ := List.mem_map.mp he
        rw [decide_eq_true_eq, ← hre]
        constructor
        · intro hq
          have h1 : pr'.1 = n := by
            injection hq
          exact hnodup.1 (List.mem_map.mpr ⟨pr', hpr', h1⟩)
        · intro hq
          have := congrArg List.length hq
          rw [destPath_length] at this
          simp [rootEntry] at this
      · rw [List.filter_eq_self]
        intro e he
        rw [decide_eq_true_eq]
        constructor
        · intro hq
          have h4 := hdone4 e he
          rw [hq] at h4
          simp at h4
        · intro hq
          have hln : lastName e.1 = n := by
            rw [hq]
            exact lastName_destPath n t
          exact hdoneName e he (n, t) (List.mem_cons_self _ _) hln
    have horg : organizeFile ⟨((n, t) :: rest).map rootEntry ++ done, ds⟩ n =
        some ⟨rest.map rootEntry ++ (done ++ [destEntry (n, t)]),
          insertAll ds (nonemptyPrefixes (bucketSegments t))⟩ := by
      simp only [organizeFile, hlook, hcdir, hren, hfilter, List.append_assoc]
      rfl
    have hyear' : ∀ pr ∈ rest, ∀ qr ∈ rest, pr.1 ≠ yearString qr.2 := by
      intro pr hpr qr hqr
      exact hyear pr (List.mem_cons_of_mem _ hpr) qr (List.mem_cons_of_mem _ hqr)
    have hdone4' : ∀ e ∈ done ++ [destEntry (n, t)], e.1.length = 4 := by
      intro e he
      rcases List.mem_append.mp he with hm | hm
      · exact hdone4 e hm
      · rw [List.mem_singleton.mp hm]
        exact destPath_length n t
    have hdoneName' : ∀ e ∈ done ++ [destEntry (n, t)], ∀ pr ∈ rest, lastName e.1 ≠ pr.1 := by
      intro e he pr hpr
      rcases List.mem_append.mp he with hm | hm
      · exact hdoneName e hm pr (List.mem_cons_of_mem _ hpr)
      · rw [List.mem_singleton.mp hm]
        show lastName (destPath n t) ≠ pr.1
        rw [lastName_destPath]
        intro hn
        exact hnodup.1 (List.mem_map.mpr ⟨pr, hpr, hn.symm⟩)
    have hds3' : ∀ d ∈ insertAll ds (nonemptyPrefixes (bucketSegments t)), d.length ≤ 3 := by
      intro d hdm
      rcases (mem_insertAll _ _ _).mp hdm with hm | hm
      · exact hds3 d hm
      · rw [mem_nonemptyPrefixes] at hm
        have := hm.2.length_le
        rw [bucketSegments_length] at this
        exact this
    obtain ⟨ds'', heq, hP1, hP2, hP3⟩ :=
      ih (done ++ [destEntry (n, t)]) (insertAll ds (nonemptyPrefixes (bucketSegments t)))
        hnodup.2 hyear' hdone4' hdoneName' hds3'
    refine ⟨ds'', ?_, ?_, ?_, ?_⟩
    · show organizeList _ (n :: rest.map Prod.fst) = _
      simp only [organizeList, horg, heq]
      simp [List.append_assoc]
    · intro d hdm
      rcases hP1 d hdm with hm | hm
      · rcases (mem_insertAll _ _ _).mp hm with hm' | hm'
        · exact Or.inl hm'
        · exact Or.inr ⟨(n, t), List.mem_cons_self _ _, hm'⟩
      · obtain ⟨pr, hpr, hq⟩ := hm
        exact Or.inr ⟨pr, List.mem_cons_of_mem _ hpr, hq⟩
    · intro d hdm
      exact hP2 d ((mem_insertAll _ _ _).mpr (Or.inl hdm))
    · intro pr hpr q hq
      rcases List.mem_cons.mp hpr with hm | hm
      · rw [hm] at hq
        exact hP2 q ((mem_insertAll _ _ _).mpr (Or.inr hq))
      · exact hP3 pr hm q hq

/-! ### The reverse traversal -/

theorem filesInDir_mem (fs : FS) (cur : List String) (n : String) (t : Int) :
    (n, t) ∈ filesInDir fs cur ↔ (cur ++ [n], t) ∈ fs.files := by
  unfold filesInDir
  rw [List.mem_filterMap]
  constructor
  · rintro ⟨e, he, hfe⟩
    by_cases htake : e.1.take cur.length = cur
    · rw [if_pos htake] at hfe
      cases hdrop : e.1.drop cur.length with
      | nil =>
        simp only [hdrop] at hfe
        cases hfe
      | cons a r =>
        cases r with
        | nil =>
          simp only [hdrop, Option.some.injEq, Prod.mk.injEq] at hfe
          obtain ⟨rfl, rfl⟩ := hfe
          have he1 : e.1 = cur ++ [a] := by
            rw [← List.take_append_drop cur.length e.1, htake, hdrop]
          rw [← he1]
          exact he
        | cons b r' =>
          simp only [hdrop] at hfe
          cases hfe
    · rw [if_neg htake] at hfe
      cases hfe
  · intro hm
    refine ⟨(cur ++ [n], t), hm, ?_⟩
    have h1 : (cur ++ [n]).take cur.length = cur := List.take_left cur [n]
    have h2 : (cur ++ [n]).drop cur.length = [n] := List.drop_left cur [n]
    simp only [h1, h2, if_true]

theorem subdirNamesIn_mem (fs : FS) (cur : List String) (n : String) :
    n ∈ subdirNamesIn fs cur ↔ cur ++ [n] ∈ fs.dirs := by
  unfold subdirNamesIn
  rw [List.mem_filterMap]
  constructor
  · rintro ⟨d, hd, hfd⟩
    by_cases htake : d.take cur.length = cur
    · rw [if_pos htake] at hfd
      cases hdrop : d.drop cur.length with
      | nil =>
        simp only [hdrop] at hfd
        cases hfd
      | cons a r =>
        cases r with
        | nil =>
          simp only [hdrop, Option.some.injEq] at hfd
          cases hfd
          have hd1 : d = cur ++ [n] := by
            rw [← List.take_append_drop cur.length d, htake, hdrop]
          rw [← hd1]
          exact hd
        | cons b r' =>
          simp only [hdrop] at hfd
          cases hfd
    · rw [if_neg htake] at hfd
      cases hfd
  · intro hm
    refine ⟨cur ++ [n], hm, ?_⟩
    have h1 : (cur ++ [n]).take cur.length = cur := List.take_left cur [n]
    have h2 : (cur ++ [n]).drop cur.length = [n] := List.drop_left cur [n]
    simp only [h1, h2, if_true]

theorem lastName_rootify (e : List String × Int) : lastName (rootify e).1 = lastName e.1 := rfl

theorem RevInv_transfer (D : List (List String)) (fs fs' : FS)
    (f : (List String × Int) → (List String × Int))
    (hf : ∀ e, f e = e ∨ f e = rootify e)
    (hd : fs'.dirs = D)
    (hperm : List.Perm fs'.files (fs.files.map f))
    (hinv : RevInv D fs) : RevInv D fs' := by
  obtain ⟨hdirs, hne, hpar, hnodup, hroot, hnodir⟩ := hinv
  have hmem : ∀ e' ∈ fs'.files, ∃ e ∈ fs.files, e' = f e := by
    intro e' he'
    have := hperm.mem_iff.mp he'
    obtain ⟨e, he, hfe⟩ := List.mem_map.mp this
    exact ⟨e, he, hfe.symm⟩
  refine ⟨hd, ?_, ?_, ?_, ?_, ?_⟩
  · intro e' he'
    obtain ⟨e, he, rfl⟩ := hmem e' he'
    rcases hf e with h | h <;> rw [h]
    · exact hne e he
    · simp [rootify]
  · intro e' he'
    obtain ⟨e, he, rfl⟩ := hmem e' he'
    rcases hf e with h | h <;> rw [h]
    · exact hpar e he
    · left
      rfl
  · have h1 : List.Perm (fs'.files.map (fun e => lastName e.1))
        ((fs.files.map f).map (fun e => lastName e.1)) := hperm.map _
    have h2 : (fs.files.map f).map (fun e => lastName e.1) =
        fs.files.map (fun e => lastName e.1) := by
      rw [List.map_map]
      apply List.map_congr_left
      intro e _
      show lastName (f e).1 = lastName e.1
      rcases hf e with h | h <;> rw [h]
      rfl
    rw [h2] at h1
    exact h1.symm.nodup hnodup
  · intro e' he'
    obtain ⟨e, he, rfl⟩ := hmem e' he'
    have hl : lastName (f e).1 = lastName e.1 := by
      rcases hf e with h | h <;> rw [h]
      rfl
    rw [hl]
    exact hroot e he
  · intro e' he'
    obtain ⟨e, he, rfl⟩ := hmem e' he'
    rcases hf e with h | h <;> rw [h]
    · exact hnodir e he
    · exact hroot e he

theorem moveFiles_spec (D : List (List String)) (cur : List String) :
    ∀ (names : List String) (fs : FS),
    fs.dirs = D →
    (∀ n ∈ names, ∃ t, (cur ++ [n], t) ∈ fs.files) →
    (fs.files.map (fun e => lastName e.1)).Nodup →
    (∀ e ∈ fs.files, [lastName e.1] ∉ D) →
    names.Nodup →
    ∃ fs₁, moveFilesToRoot fs cur names = some fs₁ ∧ fs₁.dirs = D ∧
      List.Perm fs₁.files (fs.files.map (fun e =>
        if e.1 ∈ names.map (fun n => cur ++ [n]) then rootify e else e)) := by
  intro names
  induction names with
  | nil =>
    intro fs hd _ _ _ _
    refine ⟨fs, rfl, hd, ?_⟩
    simp
  | cons n ns ih =>
    intro fs hd hpres hnodup hroot hnn
    rw [List.nodup_cons] at hnn
    obtain ⟨t, hmem⟩ := hpres n (List.mem_cons_self _ _)
    have hinj := List.inj_on_of_nodup_map hnodup
    have hlk : lookupFile fs (cur ++ [n]) = some t := lookup_eq_of_mem_of_nodup fs _ t hmem hnodup
    have hdst : [n] ∉ fs.dirs := by
      rw [hd]
      simpa [lastName_concat] using hroot (cur ++ [n], t) hmem
    have hren := renameFile_eq fs (cur ++ [n]) [n] t hlk hdst
    have hcount1 : fs.files.countP (fun e => decide (e.1 = cur ++ [n])) = 1 :=
      countP_path_eq_one fs.files _ t hmem hnodup
    have hcount0 : fs.files.countP
        (fun e => decide (e.1 = (([n], t) : List String × Int).1 ∧ e.1 ≠ cur ++ [n])) = 0 := by
      rw [List.countP_eq_zero]
      intro e he hp
      rw [decide_eq_true_eq] at hp
      obtain ⟨hp1, hp2⟩ := hp
      have heq2 : lastName e.1 = n := by
        rw [show e.1 = [n] from hp1]
        rfl
      have heq3 : lastName ((cur ++ [n], t) : List String × Int).1 = n := lastName_concat cur n
      have hee := hinj he hmem (by rw [heq2, heq3])
      exact hp2 (by rw [hee])
    have hperm1 := filter_append_perm_map fs.files (cur ++ [n]) ([n], t) hcount1 hcount0
    have hfseq : renameFile fs (cur ++ [n]) [n] =
        some ⟨fs.files.filter (fun e => decide (e.1 ≠ cur ++ [n] ∧ e.1 ≠ [n])) ++ [([n], t)],
          fs.dirs⟩ := hren
    have hf₁ : ∀ e ∈ fs.files,
        (if e.1 = cur ++ [n] then (([n], t) : List String × Int) else e) = e ∨
        (if e.1 = cur ++ [n] then (([n], t) : List String × Int) else e) = rootify e := by
      intro e he
      by_cases hc : e.1 = cur ++ [n]
      · right
        rw [if_pos hc]
        have heq3 : lastName ((cur ++ [n], t) : List String × Int).1 = n := lastName_concat cur n
        have hee := hinj he hmem (by rw [hc])
        rw [hee]
        unfold rootify
        rw [lastName_concat]
      · left
        rw [if_neg hc]
    have hlastpt : ∀ e ∈ fs.files,
        lastName (if e.1 = cur ++ [n] then (([n], t) : List String × Int) else e).1 =
          lastName e.1 := by
      intro e he
      rcases hf₁ e he with h | h <;> rw [h]
      rfl
    set F : FS := ⟨fs.files.filter (fun e => decide (e.1 ≠ cur ++ [n] ∧ e.1 ≠ [n])) ++ [([n], t)],
      fs.dirs⟩ with hFdef
    have hpermF : List.Perm F.files
        (fs.files.map (fun e => if e.1 = cur ++ [n] then (([n], t) : List String × Int) else e)) :=
      hperm1
    have hlastF : List.Perm (F.files.map (fun e => lastName e.1))
        (fs.files.map (fun e => lastName e.1)) := by
      have h1 := hpermF.map (fun e => lastName e.1)
      rw [List.map_map] at h1
      have h2 : fs.files.map ((fun e => lastName e.1) ∘
          (fun e => if e.1 = cur ++ [n] then (([n], t) : List String × Int) else e)) =
          fs.files.map (fun e => lastName e.1) :=
        List.map_congr_left (fun e he => hlastpt e he)
      rw [h2] at h1
      exact h1
    have hnodupF : (F.files.map (fun e => lastName e.1)).Nodup :=
      hlastF.symm.nodup hnodup
    have hmemF : ∀ e' ∈ F.files, ∃ e ∈ fs.files,
        e' = (if e.1 = cur ++ [n] then (([n], t) : List String × Int) else e) := by
      intro e' he'
      obtain ⟨e, he, hfe⟩ := List.mem_map.mp (hpermF.mem_iff.mp he')
      exact ⟨e, he, hfe.symm⟩
    have hrootF : ∀ e ∈ F.files, [lastName e.1] ∉ D := by
      intro e' he'
      obtain ⟨e, he, rfl⟩ := hmemF e' he'
      rw [hlastpt e he]
      exact hroot e he
    have hpresF : ∀ m ∈ ns, ∃ s, (cur ++ [m], s) ∈ F.files := by
      intro m hm
      obtain ⟨s, hs⟩ := hpres m (List.mem_cons_of_mem _ hm)
      refine ⟨s, ?_⟩
      rw [hpermF.mem_iff]
      refine List.mem_map.mpr ⟨(cur ++ [m], s), hs, ?_⟩
      rw [if_neg]
      intro hc
      have : [m] = [n] := List.append_cancel_left hc
      have : m = n := by injection this
      exact hnn.1 (this ▸ hm)
    obtain ⟨fs₂, hmv, hd₂, hperm₂⟩ := ih F hd hpresF hnodupF hrootF hnn.2
    refine ⟨fs₂, ?_, by rw [hd₂, ← hd], ?_⟩
    · show moveFilesToRoot fs cur (n :: ns) = some fs₂
      simp only [moveFilesToRoot, hfseq]
      exact hmv
    · have hstep := hpermF.map
        (fun e => if e.1 ∈ ns.map (fun m => cur ++ [m]) then rootify e else e)
      have hchain := hperm₂.trans hstep
      rw [List.map_map] at hchain
      have hptwise : fs.files.map
          ((fun e => if e.1 ∈ ns.map (fun m => cur ++ [m]) then rootify e else e) ∘
            (fun e => if e.1 = cur ++ [n] then (([n], t) : List String × Int) else e)) =
          fs.files.map (fun e =>
            if e.1 ∈ (n :: ns).map (fun m => cur ++ [m]) then rootify e else e) := by
        apply List.map_congr_left
        intro e he
        show (if (if e.1 = cur ++ [n] then (([n], t) : List String × Int) else e).1 ∈
            ns.map (fun m => cur ++ [m]) then
              rootify (if e.1 = cur ++ [n] then (([n], t) : List String × Int) else e)
            else (if e.1 = cur ++ [n] then (([n], t) : List String × Int) else e)) =
          (if e.1 ∈ (n :: ns).map (fun m => cur ++ [m]) then rootify e else e)
        by_cases hc : e.1 = cur ++ [n]
        · have hnotin : (([n], t) : List String × Int).1 ∉ ns.map (fun m => cur ++ [m]) := by
            intro hm
            obtain ⟨m, hm', hqm⟩ := List.mem_map.mp hm
            have hcl : cur.length + 1 = 1 := by
              have := congrArg List.length hqm
              simpa using this
            have hcur : cur = [] := by
              cases cur with
              | nil => rfl
              | cons a l => simp at hcl
            rw [hcur, List.nil_append] at hqm
            have hmn : m = n := by
              injection hqm
            exact hnn.1 (hmn ▸ hm')
          have hee := hinj he hmem (by rw [hc])
          rw [if_pos hc, if_neg hnotin, List.map_cons,
            if_pos (List.mem_cons.mpr (Or.inl hc)), hee]
          unfold rootify
          rw [lastName_concat]
        · rw [if_neg hc, List.map_cons]
          by_cases hm : e.1 ∈ ns.map (fun m => cur ++ [m])
          · rw [if_pos hm, if_pos (List.mem_cons_of_mem _ hm)]
          · rw [if_neg hm, if_neg (by
              rw [List.mem_cons]
              rintro (h | h)
              · exact hc h
              · exact hm h)]
      rw [hptwise] at hchain
      exact hchain

theorem filesInDir_names_nodup (fs : FS) (cur : List String)
    (hnodup : (fs.files.map (fun e => lastName e.1)).Nodup) :
    ((filesInDir fs cur).map Prod.fst).Nodup := by
  have hsub : List.Sublist ((filesInDir fs cur).map Prod.fst)
      (fs.files.map (fun e => lastName e.1)) := by
    unfold filesInDir
    rw [List.map_filterMap]
    apply filterMap_sublist_map
    intro e b hb
    by_cases htake : e.1.take cur.length = cur
    · rw [if_pos htake] at hb
      cases hdrop : e.1.drop cur.length with
      | nil => simp [hdrop] at hb
      | cons a r =>
        cases r with
        | nil =>
          simp only [hdrop, Option.map_some'] at hb
          rw [Option.some.injEq] at hb
          have he1 : e.1 = cur ++ [a] := by
            rw [← List.take_append_drop cur.length e.1, htake, hdrop]
          rw [← hb, he1, lastName_concat]
        | cons c r' => simp [hdrop] at hb
    · rw [if_neg htake] at hb
      cases hb
  exact hnodup.sublist hsub

theorem any_pre_rootify_false (D : List (List String)) (cur : List String) (l : List String)
    (hmemD : ∀ m ∈ l, cur ++ [m] ∈ D) (e : List String × Int)
    (hrootE : [lastName e.1] ∉ D) :
    l.any (fun m => decide ((cur ++ [m]) <+: (rootify e).1)) = false := by
  rw [List.any_eq_false]
  intro m hm
  rw [decide_eq_true_eq]
  intro hdec
  have hlen := hdec.length_le
  rw [List.length_append] at hlen
  simp only [List.length_singleton] at hlen
  have hcur0 : cur = [] := by
    cases cur with
    | nil => rfl
    | cons a r => simp [rootify] at hlen
  have hm1 : ([m] : List String) <+: [lastName e.1] := by
    rw [hcur0] at hdec
    simpa [rootify] using hdec
  have hm2 : m = lastName e.1 := by
    obtain ⟨u, hu⟩ := hm1
    cases u with
    | nil => injection hu
    | cons x xs =>
      rw [List.cons_append] at hu
      injection hu with h1 h2
  have hmD : cur ++ [m] ∈ D := hmemD m hm
  rw [hcur0, List.nil_append, hm2] at hmD
  exact hrootE hmD

theorem reverseDir_spec (D : List (List String)) (hD : DirsWF D) :
    ∀ (fuel : Nat) (cur : List String) (fs : FS),
    RevInv D fs → (cur = [] ∨ cur ∈ D) →
    (∀ d ∈ D, cur <+: d → d.length < cur.length + fuel) →
    1 ≤ fuel →
    ∃ fs', reverseOrganizeDir fuel fs cur = some fs' ∧ RevInv D fs' ∧
      List.Perm fs'.files (fs.files.map (movedIf cur)) := by
  intro fuel
  induction fuel with
  | zero =>
    intro cur fs _ _ _ h1
    exact absurd h1 (by omega)
  | succ fuel ihf =>
    intro cur fs hinv hcur hfb _
    obtain ⟨hdirs, hne, hpar, hnodup, hroot, hnodir⟩ := hinv
    have hpres : ∀ n ∈ (filesInDir fs cur).map Prod.fst, ∃ t, (cur ++ [n], t) ∈ fs.files := by
      intro n hn
      obtain ⟨⟨n', t⟩, hmem, hfst⟩ := List.mem_map.mp hn
      cases hfst
      exact ⟨t, (filesInDir_mem fs cur n' t).mp hmem⟩
    have hnnd : ((filesInDir fs cur).map Prod.fst).Nodup := filesInDir_names_nodup fs cur hnodup
    obtain ⟨fs₁, hmv, hd₁, hperm₁⟩ := moveFiles_spec D cur ((filesInDir fs cur).map Prod.fst) fs
      hdirs hpres hnodup hroot hnnd
    have hchildf : ∀ e : List String × Int,
        (if e.1 ∈ ((filesInDir fs cur).map Prod.fst).map (fun n => cur ++ [n]) then rootify e
          else e) = e ∨
        (if e.1 ∈ ((filesInDir fs cur).map Prod.fst).map (fun n => cur ++ [n]) then rootify e
          else e) = rootify e := by
      intro e
      by_cases h : e.1 ∈ ((filesInDir fs cur).map Prod.fst).map (fun n => cur ++ [n])
      · right
        rw [if_pos h]
      · left
        rw [if_neg h]
    have hinv₁ : RevInv D fs₁ := RevInv_transfer D fs fs₁ _ hchildf hd₁ hperm₁
      ⟨hdirs, hne, hpar, hnodup, hroot, hnodir⟩
    have hsubmem : ∀ n ∈ subdirNamesIn fs₁ cur, cur ++ [n] ∈ D := by
      intro n hn
      rw [← hd₁]
      exact (subdirNamesIn_mem fs₁ cur n).mp hn
    have B : ∀ (l : List String), (∀ n ∈ l, cur ++ [n] ∈ D) → ∀ (g : FS), RevInv D g →
        ∃ g', foldOptList (fun s n => reverseOrganizeDir fuel s (cur ++ [n])) g l = some g' ∧
          RevInv D g' ∧ List.Perm g'.files (g.files.map (fun e =>
            if l.any (fun m => decide ((cur ++ [m]) <+: e.1)) = true then rootify e else e)) := by
      intro l
      induction l with
      | nil =>
        intro _ g hg
        refine ⟨g, rfl, hg, ?_⟩
        simp
      | cons n l ihl =>
        intro hmemD g hg
        have hcurD : cur ++ [n] ∈ D := hmemD n (List.mem_cons_self _ _)
        have hfb' : ∀ d ∈ D, (cur ++ [n]) <+: d → d.length < (cur ++ [n]).length + fuel := by
          intro d hd hp
          have h0 : cur <+: d := (List.prefix_append cur [n]).trans hp
          have h1 := hfb d hd h0
          rw [List.length_append]
          simp only [List.length_singleton]
          omega
        have hfuel1 : 1 ≤ fuel := by
          have h1 := hfb (cur ++ [n]) hcurD (List.prefix_append cur [n])
          rw [List.length_append] at h1
          simp only [List.length_singleton] at h1
          omega
        obtain ⟨g₁, hrec, hinvg₁, hpermg₁⟩ := ihf (cur ++ [n]) g hg (Or.inr hcurD) hfb' hfuel1
        obtain ⟨g', hfold, hinvg', hpermg'⟩ :=
          ihl (fun m hm => hmemD m (List.mem_cons_of_mem _ hm)) g₁ hinvg₁
        refine ⟨g', ?_, hinvg', ?_⟩
        · show foldOptList _ g (n :: l) = some g'
          simp only [foldOptList, hrec]
          exact hfold
        · have hstep := hpermg₁.map
            (fun e => if l.any (fun m => decide ((cur ++ [m]) <+: e.1)) = true then rootify e
              else e)
          have hchain := hpermg'.trans hstep
          rw [List.map_map] at hchain
          have hpt : g.files.map
              ((fun e => if l.any (fun m => decide ((cur ++ [m]) <+: e.1)) = true then rootify e
                else e) ∘ movedIf (cur ++ [n])) =
              g.files.map (fun e =>
                if (n :: l).any (fun m => decide ((cur ++ [m]) <+: e.1)) = true then rootify e
                else e) := by
            apply List.map_congr_left
            intro e he
            show (if l.any (fun m => decide ((cur ++ [m]) <+: (movedIf (cur ++ [n]) e).1)) = true
                then rootify (movedIf (cur ++ [n]) e) else (movedIf (cur ++ [n]) e)) =
              (if (n :: l).any (fun m => decide ((cur ++ [m]) <+: e.1)) = true then rootify e
                else e)
            by_cases hc : (cur ++ [n]) <+: e.1
            · have hmoved : movedIf (cur ++ [n]) e = rootify e := by
                unfold movedIf
                rw [if_pos hc]
                rfl
              rw [hmoved]
              have hanyfalse := any_pre_rootify_false D cur l
                (fun m hm => hmemD m (List.mem_cons_of_mem _ hm)) e (hg.2.2.2.2.1 e he)
              rw [hanyfalse]
              have hanytrue : (n :: l).any (fun m => decide ((cur ++ [m]) <+: e.1)) = true := by
                rw [List.any_cons, decide_eq_true hc]
                rfl
              rw [hanytrue]
              simp
            · have hmoved : movedIf (cur ++ [n]) e = e := by
                unfold movedIf
                rw [if_neg hc]
              rw [hmoved]
              have hconds : (n :: l).any (fun m => decide ((cur ++ [m]) <+: e.1)) =
                  l.any (fun m => decide ((cur ++ [m]) <+: e.1)) := by
                rw [List.any_cons, decide_eq_false hc]
                rfl
              rw [hconds]
          rw [hpt] at hchain
          exact hchain
    obtain ⟨fs₂, hfold, hinv₂, hperm₂⟩ := B (subdirNamesIn fs₁ cur) hsubmem fs₁ hinv₁
    refine ⟨fs₂, ?_, hinv₂, ?_⟩
    · show reverseOrganizeDir (fuel + 1) fs cur = some fs₂
      simp only [reverseOrganizeDir, hmv]
      exact hfold
    · have hstep := hperm₁.map (fun e =>
        if (subdirNamesIn fs₁ cur).any (fun m => decide ((cur ++ [m]) <+: e.1)) = true
        then rootify e else e)
      have hchain := hperm₂.trans hstep
      rw [List.map_map] at hchain
      have hpt : fs.files.map
          ((fun e => if (subdirNamesIn fs₁ cur).any
              (fun m => decide ((cur ++ [m]) <+: e.1)) = true then rootify e else e) ∘
            (fun e => if e.1 ∈ ((filesInDir fs cur).map Prod.fst).map (fun n => cur ++ [n])
              then rootify e else e)) =
          fs.files.map (movedIf cur) := by
        apply List.map_congr_left
        intro e he
        simp only [Function.comp_apply]
        by_cases hc : cur <+: e.1
        · have hc' := hc
          obtain ⟨r, hr⟩ := hc'
          cases r with
          | nil =>
            rw [List.append_nil] at hr
            exfalso
            rcases hcur with h0 | h0
            · rw [h0] at hr
              exact hne e he hr.symm
            · rw [hr] at h0
              exact hnodir e he h0
          | cons a r' =>
            cases r' with
            | nil =>
              have hchild : e.1 ∈ ((filesInDir fs cur).map Prod.fst).map
                  (fun n => cur ++ [n]) := by
                refine List.mem_map.mpr ⟨a, ?_, hr⟩
                refine List.mem_map.mpr ⟨(a, e.2), ?_, rfl⟩
                rw [filesInDir_mem, hr]
                exact he
              rw [if_pos hchild]
              have hanyfalse := any_pre_rootify_false D cur (subdirNamesIn fs₁ cur)
                hsubmem e (hroot e he)
              rw [hanyfalse]
              unfold movedIf
              rw [if_neg (by simp), if_pos hc]
              rfl
            | cons b r'' =>
              have hnotchild : e.1 ∉ ((filesInDir fs cur).map Prod.fst).map
                  (fun n => cur ++ [n]) := by
                intro hmm
                obtain ⟨m, _, hqm⟩ := List.mem_map.mp hmm
                rw [← hr] at hqm
                have hcanc := List.append_cancel_left hqm
                have hlen := congrArg List.length hcanc
                simp at hlen
              rw [if_neg hnotchild]
              have hdl : e.1.dropLast = cur ++ a :: (b :: r'').dropLast := by
                rw [← hr, List.dropLast_append_of_ne_nil cur (by simp),
                  List.dropLast_cons_of_ne_nil (by simp : (b :: r'' : List String) ≠ [])]
              have hpar' : cur ++ a :: (b :: r'').dropLast ∈ D := by
                rcases hpar e he with h0 | h0
                · rw [hdl] at h0
                  simp at h0
                · rw [hdl] at h0
                  exact h0
              have hsubD : cur ++ [a] ∈ D := by
                apply hD.2 (cur ++ a :: (b :: r'').dropLast) hpar'
                rw [mem_nonemptyPrefixes]
                refine ⟨by simp, ?_⟩
                exact ⟨(b :: r'').dropLast, (List.append_cons _ _ _).symm⟩
              have hain : a ∈ subdirNamesIn fs₁ cur :=
                (subdirNamesIn_mem fs₁ cur a).mpr (by rw [hd₁]; exact hsubD)
              have hanytrue : (subdirNamesIn fs₁ cur).any
                  (fun m => decide ((cur ++ [m]) <+: e.1)) = true := by
                rw [List.any_eq_true]
                refine ⟨a, hain, ?_⟩
                rw [decide_eq_true_eq, ← hr]
                exact ⟨b :: r'', (List.append_cons _ _ _).symm⟩
              rw [hanytrue]
              unfold movedIf
              rw [if_pos rfl, if_pos hc]
              rfl
        · have hnotchild : e.1 ∉ ((filesInDir fs cur).map Prod.fst).map
              (fun n => cur ++ [n]) := by
            intro hmm
            obtain ⟨m, _, hqm⟩ := List.mem_map.mp hmm
            exact hc ⟨[m], hqm⟩
          rw [if_neg hnotchild]
          have hanyfalse : (subdirNamesIn fs₁ cur).any
              (fun m => decide ((cur ++ [m]) <+: e.1)) = false := by
            rw [List.any_eq_false]
            intro m _
            rw [decide_eq_true_eq]
            intro hpre
            exact hc ((List.prefix_append cur [m]).trans hpre)
          rw [hanyfalse]
          unfold movedIf
          rw [if_neg (by simp), if_neg hc]
      rw [hpt] at hchain
      exact hchain

theorem reverseOrganize_spec (fs : FS) (hD : DirsWF fs.dirs) (hinv : RevInv fs.dirs fs) :
    ∃ fs', reverseOrganize fs = some fs' ∧ RevInv fs.dirs fs' ∧
      List.Perm fs'.files (fs.files.map rootify) := by
  obtain ⟨fs', heq, hinv', hperm⟩ := reverseDir_spec fs.dirs hD (maxDirDepth fs + 1) [] fs hinv
    (Or.inl rfl)
    (by
      intro d hd _
      have h1 := length_le_maxDirDepth fs d hd
      simp only [List.length_nil]
      omega)
    (by omega)
  refine ⟨fs', heq, hinv', ?_⟩
  have hmap : fs.files.map (movedIf []) = fs.files.map rootify :=
    List.map_congr_left (fun e _ => by
      unfold movedIf
      rw [if_pos List.nil_prefix]
      rfl)
  rw [hmap] at hperm
  exact hperm

/-! ### Claim C7 -/

/-- Claim C7: reverse_organize walks the whole subtree and moves every
regular file, at any depth, directly into the root under its base name
(nested path stripped).  Hypotheses: the directory list is prefix-closed
and does not contain the root; file paths are nonempty with existing
parents; base names are pairwise distinct and collide with no root-level
directory name (otherwise the unhandled overwrite/rename edge cases of
the spec apply). -/
theorem c7_reverse_flattens (fs : FS) (hD : DirsWF fs.dirs) (hinv : RevInv fs.dirs fs) :
    ∃ fs', reverseOrganize fs = some fs' ∧ fs'.dirs = fs.dirs ∧
      List.Perm fs'.files (fs.files.map (fun e => ([lastName e.1], e.2))) := by
  obtain ⟨fs', heq, hinv', hperm⟩ := reverseOrganize_spec fs hD hinv
  exact ⟨fs', heq, hinv'.1, hperm⟩

/-- Claim C7 witness: a file nested three levels deep is relocated to the
root by reverse_organize. -/
theorem c7_reverse_flattens_witness :
    ∃ fs', reverseOrganize ⟨[(["a", "b", "c", "f.txt"], 42)],
        [["a"], ["a", "b"], ["a", "b", "c"]]⟩ = some fs' ∧
      fs'.dirs = (FS.mk [(["a", "b", "c", "f.txt"], 42)]
        [["a"], ["a", "b"], ["a", "b", "c"]]).dirs ∧
      List.Perm fs'.files ((FS.mk [(["a", "b", "c", "f.txt"], 42)]
        [["a"], ["a", "b"], ["a", "b", "c"]]).files.map (fun e => ([lastName e.1], e.2))) :=
  c7_reverse_flattens _ (by unfold DirsWF; decide) (by unfold RevInv; decide)

/-! ### Claim C5 -/

theorem rootFileNames_flat (pairs : List (String × Int)) (ds : List (List String)) :
    rootFileNames ⟨pairs.map rootEntry, ds⟩ = pairs.map Prod.fst := by
  unfold rootFileNames
  show List.filterMap _ (pairs.map rootEntry) = _
  rw [List.filterMap_map]
  show List.filterMap (some ∘ Prod.fst) pairs = _
  rw [List.filterMap_eq_map]

/-- Claim C5 counterexample: a flat directory with a single file named
"2024" whose modification year is 2024.  create_dir_all must create the
directory <root>/2024, but a regular file of that name exists, so the
directory creation fails and the whole organize operation aborts; the
round trip cannot even begin chaining into reverse_organize. -/
theorem c5_claim_counterexample :
    organize ⟨[(["2024"], daysFromCivil 2024 1 1)], []⟩ = none := by decide

/-- Claim C5 (amended): for a flat directory of files with pairwise
distinct names, where additionally no file name equals the four-digit year
string of any file's modification date (excluding the fatal
directory-creation collision of the counterexample), organize followed by
reverse_organize restores exactly the original root-level entries: the
final file list is a permutation of the original one, so no file is lost,
duplicated, or renamed. -/
theorem c5_roundtrip (pairs : List (String × Int))
    (hnodup : (pairs.map Prod.fst).Nodup)
    (hyear : ∀ pr ∈ pairs, ∀ qr ∈ pairs, pr.1 ≠ yearString qr.2) :
    ∃ fs₁ fs₂, organize ⟨pairs.map rootEntry, []⟩ = some fs₁ ∧
      reverseOrganize fs₁ = some fs₂ ∧
      List.Perm fs₂.files (pairs.map rootEntry) := by
  obtain ⟨ds', heq, hP1, hP2, hP3⟩ := organizeList_flat pairs [] [] hnodup hyear
    (by intro e he; cases he) (by intro e he; cases he) (by intro d hd; cases hd)
  rw [List.append_nil] at heq
  rw [List.nil_append] at heq
  have horg : organize ⟨pairs.map rootEntry, []⟩ = some ⟨pairs.map destEntry, ds'⟩ := by
    unfold organize
    rw [rootFileNames_flat]
    exact heq
  have hP1' : ∀ d ∈ ds', ∃ pr ∈ pairs, d ∈ nonemptyPrefixes (bucketSegments pr.2) := by
    intro d hd
    rcases hP1 d hd with h | h
    · cases h
    · exact h
  have hD : DirsWF ds' := by
    constructor
    · intro h
      obtain ⟨pr, _, hq⟩ := hP1' [] h
      exact ((mem_nonemptyPrefixes _ _).mp hq).1 rfl
    · intro d hd q hq
      obtain ⟨hqne, hqpre⟩ := (mem_nonemptyPrefixes _ _).mp hq
      obtain ⟨pr, hpr, hdpre⟩ := hP1' d hd
      obtain ⟨_, hdpre'⟩ := (mem_nonemptyPrefixes _ _).mp hdpre
      exact hP3 pr hpr q ((mem_nonemptyPrefixes _ _).mpr ⟨hqne, hqpre.trans hdpre'⟩)
  have hinv : RevInv ds' ⟨pairs.map destEntry, ds'⟩ := by
    refine ⟨rfl, ?_, ?_, ?_, ?_, ?_⟩
    · intro e he hnil
      obtain ⟨pr, hpr, rfl⟩ := List.mem_map.mp he
      have h4 := destPath_length pr.1 pr.2
      rw [show destPath pr.1 pr.2 = (destEntry pr).1 from rfl, hnil] at h4
      simp at h4
    · intro e he
      obtain ⟨pr, hpr, rfl⟩ := List.mem_map.mp he
      right
      show (destPath pr.1 pr.2).dropLast ∈ ds'
      unfold destPath
      rw [List.dropLast_concat]
      refine hP3 pr hpr _ ((mem_nonemptyPrefixes _ _).mpr ⟨?_, List.prefix_refl _⟩)
      unfold bucketSegments
      simp
    · have hmm : (pairs.map destEntry).map (fun e => lastName e.1) = pairs.map Prod.fst := by
        rw [List.map_map]
        apply List.map_congr_left
        intro pr _
        exact lastName_destPath pr.1 pr.2
      rw [hmm]
      exact hnodup
    · intro e he
      obtain ⟨pr, hpr, rfl⟩ := List.mem_map.mp he
      intro hmem
      rw [show lastName (destEntry pr).1 = pr.1 from lastName_destPath pr.1 pr.2] at hmem
      obtain ⟨qr, hqr, hq⟩ := hP1' [pr.1] hmem
      obtain ⟨_, hqpre⟩ := (mem_nonemptyPrefixes _ _).mp hq
      obtain ⟨u, hu⟩ := hqpre
      rw [List.cons_append] at hu
      have : pr.1 = yearString qr.2 := by
        injection hu
      exact hyear pr hpr qr hqr this
    · intro e he
      obtain ⟨pr, hpr, rfl⟩ := List.mem_map.mp he
      intro hmem
      obtain ⟨qr, _, hq⟩ := hP1' (destEntry pr).1 hmem
      obtain ⟨_, hqpre⟩ := (mem_nonemptyPrefixes _ _).mp hq
      have hle := hqpre.length_le
      rw [bucketSegments_length] at hle
      have h4 := destPath_length pr.1 pr.2
      rw [show destPath pr.1 pr.2 = (destEntry pr).1 from rfl] at h4
      omega
  obtain ⟨fs₂, hrev, _, hperm⟩ := reverseOrganize_spec ⟨pairs.map destEntry, ds'⟩ hD hinv
  refine ⟨⟨pairs.map destEntry, ds'⟩, fs₂, horg, hrev, ?_⟩
  have hmap : (pairs.map destEntry).map rootify = pairs.map rootEntry := by
    rw [List.map_map]
    apply List.map_congr_left
    intro pr _
    show rootify (destEntry pr) = rootEntry pr
    unfold rootify rootEntry
    rw [show lastName (destEntry pr).1 = pr.1 from lastName_destPath pr.1 pr.2]
    rfl
  rw [hmap] at hperm
  exact hperm

/-- Claim C5 witness: two concrete files with distinct names and distinct
modification days survive the organize / reverse_organize round trip. -/
theorem c5_roundtrip_witness :
    ∃ fs₁ fs₂, organize ⟨[("a.txt", daysFromCivil 2024 3 6),
        ("b.txt", daysFromCivil 2024 3 10)].map rootEntry, []⟩ = some fs₁ ∧
      reverseOrganize fs₁ = some fs₂ ∧
      List.Perm fs₂.files ([("a.txt", daysFromCivil 2024 3 6),
        ("b.txt", daysFromCivil 2024 3 10)].map rootEntry) :=
  c5_roundtrip _ (by decide) (by decide)
